import Mathlib

/-!
A verification development for `GeneratePrompt.py` (MaBlank/PromptGenerator).

The program walks a local directory tree, collects "relevant" files
(special build filenames or recognized suffixes), classifies each as
BUILD_CONFIG / TEST / SOURCE, and assembles a single prompt document
(README block, directory tree, three categorized sections).

Shallow embedding choices:
* Filesystem paths are lists of path segments (`List String`); joining with
  `os.sep` and re-splitting on `os.sep` is the identity on segment lists,
  which is exactly how the Python code consumes paths (it only ever splits
  the joined path back into segments).
* The filesystem itself is a value of the inductive type `Node`: a file
  carries the outcome of reading it (`ReadResult`), a directory carries
  `some` listing, or `none` when `os.listdir` raises
  (`NotADirectoryError` / `PermissionError`, the two exceptions caught at
  the call site; with results of `os.listdir` on a static tree these are
  the listing failures that occur).
* Python string comparison (used by `entries.sort()`) is by code points;
  we define it directly on the character lists of Lean strings, because the
  built-in `String.lt` does not reduce in the kernel.
* Python `str.lower()` is modelled on ASCII letters (`lowerChar`), which is
  exact on all inputs the `"test"`-segment comparison can ever match.
* Recursion over the nested inductive `Node` is expressed with an explicit
  fuel argument bounded by `nodeSize`; `walkNodeF_congr` proves the result
  is independent of the fuel once it is at least `nodeSize` of the tree,
  so the wrapper `walkNode` is a faithful, fully computable rendering of
  the recursive Python function.
-/

namespace GeneratePrompt

/-! ## Python string primitives on code points -/

/-- Python `<` on single characters: comparison of code points. -/
def charLtB (a b : Char) : Bool := a.toNat < b.toNat

/-- Python `<` on strings (as character lists): lexicographic by code point. -/
def charListLtB : List Char → List Char → Bool
  | [], [] => false
  | [], _ :: _ => true
  | _ :: _, [] => false
  | a :: as, b :: bs =>
    if charLtB a b then true
    else if charLtB b a then false
    else charListLtB as bs

/-- Python `a < b` on strings. -/
def strLtB (a b : String) : Bool := charListLtB a.data b.data

/-- Python `a <= b` on strings (total preorder used by `list.sort()`). -/
def strLeB (a b : String) : Bool := !(strLtB b a)

/-- Python `str.lower()` on one character (ASCII range, which is all the
`"test"`-segment test can distinguish). -/
def lowerChar (c : Char) : Char :=
  if 'A' ≤ c ∧ c ≤ 'Z' then Char.ofNat (c.toNat + 32) else c

/-- Python `str.lower()` on a string. -/
def lowerStr (s : String) : String := ⟨s.data.map lowerChar⟩

/-- Python `s.endswith(suffix)` for one suffix. -/
def endsWithB (s suffix : String) : Bool := suffix.data.isSuffixOf s.data

/-- Python `s.endswith(tuple)`: true iff some member of the tuple is a
suffix of `s`. -/
def endsWithAnyB (s : String) (ends : List String) : Bool :=
  ends.any (fun e => endsWithB s e)

/-! ## Fixed configuration (GeneratePrompt.py lines 4-40) -/

/-- The constant `IGNORE_PATTERNS` (a Python set; modelled as the list of its members —
only membership is ever used). -/
def IGNORE_PATTERNS : List String :=
  ["target", ".git", ".github", ".idea", "node_modules", ".m2",
   "__pycache__", "build", "dist", "out"]

/-- The constant `RELEVANT_ENDINGS` (the tuple literally lists `.md` twice; kept). -/
def RELEVANT_ENDINGS : List String :=
  [".java", ".jsp", ".kt", ".groovy", ".js", ".jsx",
   ".xml", ".properties", ".yml", ".yaml", ".json", ".toml",
   ".gradle", ".mvn", ".gitignore", ".md",
   ".md", ".adoc", ".rst"]

/-- The constant `SPECIAL_BUILD_FILES`. -/
def SPECIAL_BUILD_FILES : List String :=
  ["pom.xml", "build.gradle", "settings.gradle", "Dockerfile",
   "docker-compose.yml", "docker-compose.yaml"]

/-! ## Data model -/

/-- The classification strings attached to recorded files. -/
inductive Classification
  | BUILD_CONFIG
  | TEST
  | SOURCE
deriving DecidableEq, Repr

/-- Result of reading one file's bytes (the three alternatives
`get_local_file_content` distinguishes): valid UTF-8 text, bytes that are
not valid UTF-8 (`UnicodeDecodeError`), or any other read failure carrying
the description `str(e)`. -/
inductive ReadResult
  | text (s : String)
  | undecodable
  | readError (msg : String)
deriving DecidableEq, Repr

/-- A filesystem node. A directory's listing is `none` when `os.listdir`
on it raises (`NotADirectoryError` / `PermissionError`); otherwise it is
the list of `(entry name, child)` pairs, in unspecified order (the code
sorts it). -/
inductive Node
  | file (content : ReadResult)
  | dir (listing : Option (List (String × Node)))

/-- Python `os.path.isdir`. -/
def Node.isDirB : Node → Bool
  | .file _ => false
  | .dir _ => true

mutual
/-- A size measure on trees, used as recursion fuel for the walk (strictly
larger than the nesting depth). -/
def nodeSize : Node → Nat
  | .file _ => 1
  | .dir none => 1
  | .dir (some l) => 1 + entriesSize l
/-- Size measure on directory listings. -/
def entriesSize : List (String × Node) → Nat
  | [] => 1
  | (_, c) :: rest => 1 + nodeSize c + entriesSize rest
end

/-- One element of the `file_paths` list: the tuple
`(indent, full_path, kind)` appended by `build_directory_tree_local`. -/
structure FileRec where
  indent : Nat
  path : List String
  kind : Classification
deriving DecidableEq, Repr

/-! ## Path predicates (lines 63-91) -/

/-- Line 67: `any(pattern in full_path.split(os.sep) for pattern in
IGNORE_PATTERNS)`. -/
def should_ignore (full_path : List String) : Bool :=
  IGNORE_PATTERNS.any (fun pattern => full_path.contains pattern)

/-- Line 88: `'test' in full_path.lower().split(os.sep)` — lowering the
joined path then splitting on the (case-stable) separator lowers each
segment. -/
def hasTestSegment (full_path : List String) : Bool :=
  full_path.any (fun seg => lowerStr seg == "test")

/-- Line 72/76: `'    ' * indent`. -/
def indentUnit (n : Nat) : String := String.join (List.replicate n "    ")

/-- Lines 81-91: the records contributed by one non-directory entry
(`[]` when the `if`/`elif` appends nothing). -/
def recordForFile (full_path : List String) (entry : String) (indent : Nat) :
    List FileRec :=
  if entry ∈ SPECIAL_BUILD_FILES then
    [⟨indent, full_path, Classification.BUILD_CONFIG⟩]
  else if endsWithAnyB entry RELEVANT_ENDINGS then
    if hasTestSegment full_path then [⟨indent, full_path, Classification.TEST⟩]
    else [⟨indent, full_path, Classification.SOURCE⟩]
  else []

/-! ## The walk (lines 42-93) -/

/-- The comparison `entries.sort()` uses, lifted to entry pairs: Python's
string less-or-equal on the entry names. -/
abbrev entryLeP (a b : String × Node) : Prop := strLeB a.1 b.1 = true

/-- Line 62: `entries.sort()` — ascending Python string order. Directory
listings never contain two equal names, so any correct ascending sort
yields the Python result; we use insertion sort, which computes in the
kernel. -/
def sortEntries (l : List (String × Node)) : List (String × Node) :=
  List.insertionSort entryLeP l

/-- The body of the `for entry in entries:` loop (lines 63-92),
parameterized by the recursive call used for subdirectories. The tuple
componentwise accumulates `(tree_str, file_paths)`; the pure
concatenations reproduce exactly the Python append order. -/
def walkEntriesGo
    (walkChild : Node → List String → Nat → String × List FileRec) :
    List (String × Node) → List String → Nat → String × List FileRec
  | [], _, _ => ("", [])
  | (entry, child) :: rest, base, indent =>
    let full_path := base ++ [entry]
    if should_ignore full_path then walkEntriesGo walkChild rest base indent
    else if child.isDirB then
      let sub := walkChild child full_path (indent + 1)
      let rest' := walkEntriesGo walkChild rest base indent
      (indentUnit indent ++ "[" ++ entry ++ "/]\n" ++ sub.1 ++ rest'.1,
       sub.2 ++ rest'.2)
    else
      let rest' := walkEntriesGo walkChild rest base indent
      (indentUnit indent ++ entry ++ "\n" ++ rest'.1,
       recordForFile full_path entry indent ++ rest'.2)

/-- The function `build_directory_tree_local` with an explicit structural fuel (the
recursion of the Python function is along the nested tree; the fuel is a
technical device, shown irrelevant by `walkNodeF_congr` below). A `file`
node and an unlistable directory both make `os.listdir` raise one of the
two caught exceptions, returning `("", file_paths)` (lines 57-60). -/
def walkNodeF : Nat → Node → List String → Nat → String × List FileRec
  | 0, _, _, _ => ("", [])
  | fuel + 1, t, base, indent =>
    match t with
    | .file _ => ("", [])
    | .dir none => ("", [])
    | .dir (some l) =>
      walkEntriesGo (fun t' b' i' => walkNodeF fuel t' b' i')
        (sortEntries l) base indent

/-- The call `build_directory_tree_local(base_path, indent)` on the tree rooted at
`base`, for an arbitrary starting indent. -/
def walkNode (t : Node) (base : List String) (indent : Nat) :
    String × List FileRec :=
  walkNodeF (nodeSize t) t base indent

/-- The call `build_directory_tree_local(base_path)` as made by the assembler (indent 0, fresh
accumulator). -/
def build_directory_tree_local (t : Node) (base : List String) :
    String × List FileRec :=
  walkNode t base 0

/-! ## Content loading (lines 96-106) -/

/-- The function `get_local_file_content` on the outcome of reading the bytes: the
decoded text, the fixed non-UTF-8 placeholder, or the error placeholder
embedding `str(e)`. Every branch returns a string; nothing propagates. -/
def get_local_file_content : ReadResult → String
  | .text s => s
  | .undecodable => "Binary or non-UTF8 file, cannot display text content."
  | .readError msg => "Error reading file: " ++ msg

/-- Stands for `str(e)` when `open()` is applied to a directory
(`IsADirectoryError`, caught by `except Exception`); the exact text is
OS-specific and nothing proved below depends on it, only on the
placeholder being non-empty. -/
def isADirectoryMsg : String := "Is a directory"

/-- Stands for `str(e)` when `open()` is applied to a path that does not resolve to anything
(only reachable if the tree changed between discovery and read; never hit
from the walk's own records). -/
def noSuchFileMsg : String := "No such file or directory"

/-- Reading a node found at a path: a file yields `get_local_file_content`
of its read outcome; a directory makes `open()` raise, which the generic
handler turns into the error placeholder. -/
def readNodeContent : Node → String
  | .file r => get_local_file_content r
  | .dir _ => "Error reading file: " ++ isADirectoryMsg

/-- Follow a root-relative segment path down the tree. -/
def resolvePath : Node → List String → Option Node
  | t, [] => some t
  | .dir (some l), s :: rest =>
    match l.lookup s with
    | some child => resolvePath child rest
    | none => none
  | _, _ :: _ => none

/-- The call `get_local_file_content(path)` for a root-relative path, resolving in
the tree rooted at the scan root. -/
def readRel (t : Node) (rel : List String) : String :=
  match resolvePath t rel with
  | some n => readNodeContent n
  | none => "Error reading file: " ++ noSuchFileMsg

/-! ## Document assembly (lines 109-166) -/

/-- Python `os.path.exists(os.path.join(base_path, name))` together with fetching
the named direct child (a directory also "exists"). -/
def findEntry (t : Node) (name : String) : Option Node :=
  match t with
  | .dir (some l) => l.lookup name
  | _ => none

/-- Lines 116-121: try `README.md` then `README.MD`; on the first that
exists, load it; `(chosen name, loaded content)`. -/
def readmeLookup (t : Node) : Option (String × String) :=
  match findEntry t "README.md" with
  | some n => some ("README.md", readNodeContent n)
  | none =>
    match findEntry t "README.MD" with
    | some n => some ("README.MD", readNodeContent n)
    | none => none

/-- Lines 123-126. `if readme_content:` is Python truthiness on an
`Optional[str]`: the block is rendered only when a README was found AND
its loaded content is a non-empty string. -/
def readmeBlock (t : Node) : String :=
  match readmeLookup t with
  | some (name, content) =>
    if content = "" then "README.md: Not found!\n\n"
    else name ++ ":\n```\n" ++ content ++ "\n```\n\n"
  | none => "README.md: Not found!\n\n"

/-- Python `os.path.relpath(path, base_path)` for a path strictly below the base
(the only way the walk creates record paths): the remaining segments
joined with the separator. -/
def relPathString (base full_path : List String) : String :=
  String.intercalate "/" (full_path.drop base.length)

/-- Lines 141-144: the snippet rendered for one record. -/
def renderSnippet (t : Node) (base : List String) (r : FileRec) : String :=
  "\n" ++ indentUnit r.indent ++ relPathString base r.path ++ ":\n"
    ++ indentUnit r.indent ++ "```\n"
    ++ readRel t (r.path.drop base.length) ++ "\n"
    ++ indentUnit r.indent ++ "```\n"

/-- Lines 134-151: one pass over `file_paths` distributing snippets into
`(build_section, source_section, test_section)`, keeping discovery
order inside each. -/
def buildSections (t : Node) (base : List String) :
    List FileRec → List String × List String × List String
  | [] => ([], [], [])
  | r :: rest =>
    let acc := buildSections t base rest
    let snippet := renderSnippet t base r
    match r.kind with
    | .BUILD_CONFIG => (snippet :: acc.1, acc.2.1, acc.2.2)
    | .TEST => (acc.1, acc.2.1, snippet :: acc.2.2)
    | .SOURCE => (acc.1, snippet :: acc.2.1, acc.2.2)

/-- Lines 154-164: a section contributes its header and joined snippets
when nonempty, and nothing at all when empty. -/
def sectionText (header : String) (snippets : List String) : String :=
  if snippets.isEmpty then "" else header ++ String.join snippets

/-- The call `retrieve_local_repo_info(base_path)` on the tree `t` rooted at
`base`. -/
def retrieve_local_repo_info (t : Node) (base : List String) : String :=
  let walked := build_directory_tree_local t base
  let sections := buildSections t base walked.2
  readmeBlock t
    ++ "Directory Structure:\n" ++ walked.1 ++ "\n"
    ++ sectionText "\n=== Build & Config Files ===\n" sections.1
    ++ sectionText "\n=== Source Files ===\n" sections.2.1
    ++ sectionText "\n=== Test Files ===\n" sections.2.2

/-! ## Specification-side notions (from the spec's words, §3 and §4.1) -/

/-- §4.1 `isRelevant(filename)`: in the special set, or ends with a
recognized suffix. -/
def isRelevantName (name : String) : Bool :=
  decide (name ∈ SPECIAL_BUILD_FILES) || endsWithAnyB name RELEVANT_ENDINGS

/-- The basename (last segment) of a nonempty path; `""` for the empty
path (which never names a file). -/
def lastSeg (p : List String) : String := p.getLastD ""

/-- §4.1 `classify(filePath)`: special-filename membership yields
BUILD_CONFIG unconditionally; otherwise TEST when some path segment
case-insensitively equals `"test"`; otherwise SOURCE. -/
def classifySpec (full_path : List String) : Classification :=
  if lastSeg full_path ∈ SPECIAL_BUILD_FILES then Classification.BUILD_CONFIG
  else if hasTestSegment full_path then Classification.TEST
  else Classification.SOURCE

/-- Reachability: `FileAt t rel c` means that starting at node `t` and following the root-relative
segment path `rel` reaches a file whose read outcome is `c`, every
directory along the way having a readable listing ("reachable from the
root"). -/
inductive FileAt : Node → List String → ReadResult → Prop
  | here (c : ReadResult) : FileAt (.file c) [] c
  | step (l : List (String × Node)) (name : String) (child : Node)
      (rel : List String) (c : ReadResult) :
      (name, child) ∈ l → FileAt child rel c →
      FileAt (.dir (some l)) (name :: rel) c


/-- The record that the §4.1 rule predicts for the file at root-relative
path `rel` when the walk started at `base` with starting indent `i`. -/
def recordAt (base rel : List String) (i : Nat) : FileRec :=
  ⟨i + rel.length - 1, base ++ rel, classifySpec (base ++ rel)⟩

/-- The full contribution of one non-ignored directory entry to the tree
text of the directory that contains it. -/
def entryChunk (base : List String) (i : Nat) (p : String × Node) : String :=
  match p.2 with
  | .file _ => indentUnit i ++ p.1 ++ "\n"
  | .dir ls =>
    indentUnit i ++ "[" ++ p.1 ++ "/]\n"
      ++ (walkNode (.dir ls) (base ++ [p.1]) (i + 1)).1

/-- Concrete tree for exercising C1: `notes.txt` is reachable and not
ignored but not relevant, `Main.java` is relevant. -/
def fsC1 : Node :=
  .dir (some [("src", .dir (some [
    ("Main.java", .file (.text "m")),
    ("notes.txt", .file (.text "n"))]))])

/-- Concrete tree for exercising C2: a `pom.xml` deep inside a `test`
directory (both the `.xml` suffix and the `test` segment also apply), and
a `Foo.java` under `src/test/java`. -/
def fsC2 : Node :=
  .dir (some [("project", .dir (some [("src", .dir (some [("test",
    .dir (some [("java", .dir (some [
      ("Foo.java", .file (.text "f")),
      ("pom.xml", .file (.text "p"))]))]))]))]))])

/-- Concrete tree for exercising C10. -/
def fsC10 : Node :=
  .dir (some [("App.java", .file (.text "a")), ("data.bin", .file .undecodable)])

/-- The tree used to exercise C3: a directory named `subtarget` (only a
substring match for the pattern `target`) and a directory named exactly
`target`. -/
def fsC3 : Node :=
  .dir (some [
    ("subtarget", .dir (some [("Main.java", .file (.text "m"))])),
    ("target", .dir (some [("Hidden.java", .file (.text "h"))]))])

/-- A root with an existing but empty `README.md`. -/
def fsEmptyReadme : Node := .dir (some [("README.md", .file (.text ""))])

/-- A root with a README.md whose content is "Hi". -/
def fsReadmeHi : Node :=
  .dir (some [("README.md", .file (.text "Hi")),
              ("Main.java", .file (.text "m"))])

/-- Python's strict string order, on names. -/
abbrev strLtP (a b : String) : Prop := strLtB a b = true

/-- Python's strict string order, on entry pairs (by name). -/
abbrev entryNameLt (a b : String × Node) : Prop := strLtB a.1 b.1 = true

/-- Relates two directory entries with the same name whose children stand
in relation `R`. -/
def EntryRel (R : Node → Node → Prop) (a b : String × Node) : Prop :=
  a.1 = b.1 ∧ R a.2 b.2

mutual
/-- Relates two `Node` values obtained by listing the same unchanged tree
twice: file contents agree, unlistable directories agree, and a listable
directory's two listings are a permutation of one another with recursively
related children. -/
inductive Relisting : Node → Node → Prop
  | file (c : ReadResult) : Relisting (.file c) (.file c)
  | dirNone : Relisting (.dir none) (.dir none)
  | dirSome (l₁ mid l₂ : List (String × Node)) :
      l₁.Perm mid → RelistEntries mid l₂ →
      Relisting (.dir (some l₁)) (.dir (some l₂))
/-- Pointwise relisting of two equally-ordered listings. -/
inductive RelistEntries : List (String × Node) → List (String × Node) → Prop
  | nil : RelistEntries [] []
  | cons (name : String) (c₁ c₂ : Node) (r₁ r₂ : List (String × Node)) :
      Relisting c₁ c₂ → RelistEntries r₁ r₂ →
      RelistEntries ((name, c₁) :: r₁) ((name, c₂) :: r₂)
end

/-- Names are duplicate-free in every directory of the tree — the
filesystem invariant under which relisting is harmless. -/
inductive NodupNames : Node → Prop
  | file (c : ReadResult) : NodupNames (.file c)
  | dirNone : NodupNames (.dir none)
  | dirSome (l : List (String × Node)) :
      (l.map Prod.fst).Nodup → (∀ p, p ∈ l → NodupNames p.2) →
      NodupNames (.dir (some l))

/-- One listing of a two-file directory. -/
def fsC8a : Node :=
  .dir (some [("b.java", .file (.text "b")), ("a.java", .file (.text "a"))])

/-- The other listing of the same directory. -/
def fsC8b : Node :=
  .dir (some [("a.java", .file (.text "a")), ("b.java", .file (.text "b"))])

/-! ## Basic facts about the measure, the sort and the path predicates -/

theorem nodeSize_pos (t : Node) : 1 ≤ nodeSize t := by
  cases t with
  | file c => simp [nodeSize]
  | dir o => cases o <;> simp [nodeSize]

theorem mem_entriesSize_lt {p : String × Node} {l : List (String × Node)}
    (h : p ∈ l) : nodeSize p.2 < entriesSize l := by
  induction l with
  | nil => cases h
  | cons q rest ih =>
    rcases List.mem_cons.mp h with hq | hrest
    · subst hq
      obtain ⟨a, c⟩ := p
      simp [entriesSize]
      omega
    · obtain ⟨a, c⟩ := q
      have := ih hrest
      simp [entriesSize]
      omega

theorem sortEntries_perm (l : List (String × Node)) : (sortEntries l).Perm l :=
  List.perm_insertionSort _ l

theorem mem_sortEntries {p : String × Node} {l : List (String × Node)} :
    p ∈ sortEntries l ↔ p ∈ l :=
  (sortEntries_perm l).mem_iff

theorem should_ignore_iff (p : List String) :
    should_ignore p = true ↔ ∃ seg, seg ∈ p ∧ seg ∈ IGNORE_PATTERNS := by
  simp only [should_ignore, List.any_eq_true, List.elem_iff]
  exact ⟨fun ⟨pat, h1, h2⟩ => ⟨pat, h2, h1⟩, fun ⟨seg, h1, h2⟩ => ⟨seg, h2, h1⟩⟩

theorem should_ignore_append (p q : List String) :
    should_ignore (p ++ q) = (should_ignore p || should_ignore q) := by
  simp only [should_ignore]
  induction IGNORE_PATTERNS with
  | nil => rfl
  | cons pat pats ih =>
    simp only [List.any_cons, ih, List.elem_iff, List.mem_append]
    by_cases h1 : pat ∈ p <;> by_cases h2 : pat ∈ q <;> simp [h1, h2, Bool.or_assoc,
      Bool.or_comm, Bool.or_left_comm]

theorem hasTestSegment_append (p q : List String) :
    hasTestSegment (p ++ q) = (hasTestSegment p || hasTestSegment q) := by
  simp [hasTestSegment, List.any_append]

theorem lastSeg_append_singleton (p : List String) (a : String) :
    lastSeg (p ++ [a]) = a := by
  simp [lastSeg]

theorem lastSeg_cons_of_ne (a : String) {l : List String} (h : l ≠ []) :
    lastSeg (a :: l) = lastSeg l := by
  cases l with
  | nil => exact absurd rfl h
  | cons b bs =>
    simp only [lastSeg, List.getLastD_cons]

/-! ## Fuel irrelevance and unfolding equations for the walk -/

theorem walkEntriesGo_congr {f g : Node → List String → Nat → String × List FileRec}
    (es : List (String × Node)) (base : List String) (i : Nat)
    (h : ∀ p ∈ es, ∀ b j, f p.2 b j = g p.2 b j) :
    walkEntriesGo f es base i = walkEntriesGo g es base i := by
  induction es with
  | nil => rfl
  | cons p rest ih =>
    obtain ⟨entry, child⟩ := p
    have hrest : walkEntriesGo f rest base i = walkEntriesGo g rest base i :=
      ih (fun q hq => h q (List.mem_cons_of_mem _ hq))
    have hchild : ∀ b j, f child b j = g child b j :=
      h (entry, child) (List.mem_cons_self _ _)
    simp only [walkEntriesGo, hrest, hchild]

theorem walkNodeF_congr : ∀ (f₁ f₂ : Nat) (t : Node), nodeSize t ≤ f₁ →
    nodeSize t ≤ f₂ → ∀ base i, walkNodeF f₁ t base i = walkNodeF f₂ t base i := by
  intro f₁
  induction f₁ with
  | zero =>
    intro f₂ t h₁
    exact absurd h₁ (by have := nodeSize_pos t; omega)
  | succ n ih =>
    intro f₂ t h₁ h₂ base i
    obtain ⟨m, rfl⟩ : ∃ m, f₂ = m + 1 :=
      ⟨f₂ - 1, by have := nodeSize_pos t; omega⟩
    cases t with
    | file c => simp [walkNodeF]
    | dir o =>
      cases o with
      | none => simp [walkNodeF]
      | some l =>
        simp only [walkNodeF]
        apply walkEntriesGo_congr
        intro p hp b j
        have hpl : p ∈ l := mem_sortEntries.mp hp
        have hsz : nodeSize p.2 < 1 + entriesSize l := by
          have := mem_entriesSize_lt hpl; omega
        have hle₁ : nodeSize p.2 ≤ n := by
          have : nodeSize (Node.dir (some l)) = 1 + entriesSize l := by
            simp [nodeSize]
          omega
        have hle₂ : nodeSize p.2 ≤ m := by
          have : nodeSize (Node.dir (some l)) = 1 + entriesSize l := by
            simp [nodeSize]
          omega
        exact ih m p.2 hle₁ hle₂ b j

theorem walkNode_file (c : ReadResult) (base : List String) (i : Nat) :
    walkNode (.file c) base i = ("", []) := rfl

theorem walkNode_dirNone (base : List String) (i : Nat) :
    walkNode (.dir none) base i = ("", []) := rfl

theorem walkNode_dirSome (l : List (String × Node)) (base : List String) (i : Nat) :
    walkNode (.dir (some l)) base i
      = walkEntriesGo (fun t b j => walkNode t b j) (sortEntries l) base i := by
  show walkNodeF (nodeSize (.dir (some l))) (.dir (some l)) base i = _
  have h1 : nodeSize (Node.dir (some l)) = entriesSize l + 1 := by
    simp [nodeSize]; omega
  rw [h1]
  simp only [walkNodeF]
  apply walkEntriesGo_congr
  intro p hp b j
  have hpl : p ∈ l := mem_sortEntries.mp hp
  have := mem_entriesSize_lt hpl
  exact walkNodeF_congr _ _ _ (by omega) (le_refl _) b j

/-! ## Inversion lemmas for reachability -/

theorem fileAt_file_iff {c c' : ReadResult} {rel : List String} :
    FileAt (.file c) rel c' ↔ rel = [] ∧ c' = c := by
  constructor
  · intro h
    cases h
    exact ⟨rfl, rfl⟩
  · rintro ⟨rfl, rfl⟩
    exact FileAt.here _

theorem fileAt_dirNone {rel : List String} {c : ReadResult} :
    ¬ FileAt (.dir none) rel c := by
  intro h
  cases h

theorem fileAt_dirSome_iff {l : List (String × Node)} {rel : List String}
    {c : ReadResult} :
    FileAt (.dir (some l)) rel c ↔
      ∃ name child rel', (name, child) ∈ l ∧ rel = name :: rel' ∧
        FileAt child rel' c := by
  constructor
  · intro h
    cases h
    rename_i name child rel' hmem hfa
    exact ⟨name, child, rel', hmem, rfl, hfa⟩
  · rintro ⟨name, child, rel', hmem, rfl, hfa⟩
    exact FileAt.step _ _ _ _ _ hmem hfa

theorem fileAt_dir_ne_nil {o : Option (List (String × Node))} {rel : List String}
    {c : ReadResult} (h : FileAt (.dir o) rel c) : rel ≠ [] := by
  cases h
  simp

/-! ## Characterization of the records produced by the walk -/

theorem recordAt_cons (base : List String) (name : String) (rel : List String)
    (i : Nat) :
    recordAt (base ++ [name]) rel (i + 1) = recordAt base (name :: rel) i := by
  have hsp : (base ++ [name]) ++ rel = base ++ name :: rel := by simp
  unfold recordAt
  rw [hsp]
  have hlen : (name :: rel).length = rel.length + 1 := by simp
  rw [hlen]
  have harith : i + 1 + rel.length - 1 = i + (rel.length + 1) - 1 := by omega
  rw [harith]

theorem mem_recordForFile_iff (base : List String) (entry : String) (i : Nat)
    (r : FileRec) :
    r ∈ recordForFile (base ++ [entry]) entry i ↔
      isRelevantName entry = true ∧ r = recordAt base [entry] i := by
  have hrec : recordAt base [entry] i
      = ⟨i, base ++ [entry], classifySpec (base ++ [entry])⟩ := by
    simp [recordAt]
  rw [hrec]
  unfold recordForFile isRelevantName classifySpec
  rw [lastSeg_append_singleton]
  by_cases h1 : entry ∈ SPECIAL_BUILD_FILES
  · simp [h1]
  · by_cases h2 : endsWithAnyB entry RELEVANT_ENDINGS = true <;>
      by_cases h3 : hasTestSegment (base ++ [entry]) = true <;>
        simp [h1, h2, h3]

theorem walkEntriesGo_cons_ignored
    (f : Node → List String → Nat → String × List FileRec)
    (entry : String) (child : Node) (rest : List (String × Node))
    (base : List String) (i : Nat)
    (hig : should_ignore (base ++ [entry]) = true) :
    walkEntriesGo f ((entry, child) :: rest) base i
      = walkEntriesGo f rest base i := by
  simp [walkEntriesGo, hig]

theorem walkEntriesGo_cons_file
    (f : Node → List String → Nat → String × List FileRec)
    (entry : String) (cc : ReadResult) (rest : List (String × Node))
    (base : List String) (i : Nat)
    (hig : should_ignore (base ++ [entry]) = false) :
    walkEntriesGo f ((entry, .file cc) :: rest) base i
      = (indentUnit i ++ entry ++ "\n" ++ (walkEntriesGo f rest base i).1,
         recordForFile (base ++ [entry]) entry i
           ++ (walkEntriesGo f rest base i).2) := by
  simp [walkEntriesGo, hig, Node.isDirB]

theorem walkEntriesGo_cons_dir
    (f : Node → List String → Nat → String × List FileRec)
    (entry : String) (ls : Option (List (String × Node)))
    (rest : List (String × Node)) (base : List String) (i : Nat)
    (hig : should_ignore (base ++ [entry]) = false) :
    walkEntriesGo f ((entry, .dir ls) :: rest) base i
      = (indentUnit i ++ "[" ++ entry ++ "/]\n"
           ++ (f (.dir ls) (base ++ [entry]) (i + 1)).1
           ++ (walkEntriesGo f rest base i).1,
         (f (.dir ls) (base ++ [entry]) (i + 1)).2
           ++ (walkEntriesGo f rest base i).2) := by
  simp [walkEntriesGo, hig, Node.isDirB]

theorem mem_walkEntriesGo (es : List (String × Node)) (base : List String)
    (i : Nat) (r : FileRec) :
    r ∈ (walkEntriesGo (fun t b j => walkNode t b j) es base i).2 ↔
      ∃ p ∈ es, should_ignore (base ++ [p.1]) = false ∧
        ((p.2.isDirB = true ∧ r ∈ (walkNode p.2 (base ++ [p.1]) (i + 1)).2) ∨
         (p.2.isDirB = false ∧ r ∈ recordForFile (base ++ [p.1]) p.1 i)) := by
  induction es with
  | nil => simp [walkEntriesGo]
  | cons p rest ih =>
    obtain ⟨entry, child⟩ := p
    rw [List.exists_mem_cons_iff]
    by_cases hig : should_ignore (base ++ [entry]) = true
    · rw [walkEntriesGo_cons_ignored _ _ _ _ _ _ hig, ih]
      simp [hig]
    · have hig' : should_ignore (base ++ [entry]) = false := by
        simpa using hig
      cases child with
      | file cc =>
        rw [walkEntriesGo_cons_file _ _ _ _ _ _ hig']
        simp only [List.mem_append]
        rw [ih]
        simp [hig', Node.isDirB]
      | dir ls =>
        rw [walkEntriesGo_cons_dir _ _ _ _ _ _ hig']
        simp only [List.mem_append]
        rw [ih]
        simp [hig', Node.isDirB]

theorem mem_walkNode_aux : ∀ (n : Nat) (t : Node), nodeSize t ≤ n →
    ∀ (base : List String) (i : Nat) (r : FileRec),
    r ∈ (walkNode t base i).2 ↔
      ∃ rel c, FileAt t rel c ∧ should_ignore (base ++ rel) = false ∧
        isRelevantName (lastSeg rel) = true ∧ r = recordAt base rel i := by
  intro n
  induction n with
  | zero =>
    intro t h
    exact absurd h (by have := nodeSize_pos t; omega)
  | succ n ih =>
    intro t ht base i r
    cases t with
    | file c =>
      rw [walkNode_file]
      constructor
      · intro h
        simp at h
      · rintro ⟨rel, c', hfa, -, hrelev, -⟩
        rcases fileAt_file_iff.mp hfa with ⟨rfl, rfl⟩
        exact absurd hrelev (by decide)
    | dir o =>
      cases o with
      | none =>
        rw [walkNode_dirNone]
        constructor
        · intro h
          simp at h
        · rintro ⟨rel, c', hfa, -⟩
          exact absurd hfa fileAt_dirNone
      | some l =>
        have hsize : ∀ p : String × Node, p ∈ l → nodeSize p.2 ≤ n := by
          intro p hp
          have h1 := mem_entriesSize_lt hp
          have h2 : nodeSize (Node.dir (some l)) = 1 + entriesSize l := by
            simp [nodeSize]
          omega
        rw [walkNode_dirSome, mem_walkEntriesGo]
        constructor
        · rintro ⟨⟨entry, child⟩, hp, hig, hcase⟩
          have hmem : (entry, child) ∈ l := mem_sortEntries.mp hp
          rcases hcase with ⟨hdir, hr⟩ | ⟨hfile, hr⟩
          · obtain ⟨ls, rfl⟩ : ∃ ls, child = Node.dir ls := by
              cases child with
              | file cc => simp [Node.isDirB] at hdir
              | dir ls => exact ⟨ls, rfl⟩
            rcases (ih _ (hsize _ hmem) _ _ r).mp hr with
              ⟨rel', c', hfa', hig', hrelev', hr'⟩
            have hne : rel' ≠ [] := fileAt_dir_ne_nil hfa'
            refine ⟨entry :: rel', c', FileAt.step _ _ _ _ _ hmem hfa', ?_, ?_, ?_⟩
            · have hsp : base ++ entry :: rel' = (base ++ [entry]) ++ rel' := by
                simp
              rw [hsp]
              exact hig'
            · rw [lastSeg_cons_of_ne _ hne]
              exact hrelev'
            · rw [hr']
              exact recordAt_cons _ _ _ _
          · obtain ⟨cc, rfl⟩ : ∃ cc, child = Node.file cc := by
              cases child with
              | file cc => exact ⟨cc, rfl⟩
              | dir ls => simp [Node.isDirB] at hfile
            rcases (mem_recordForFile_iff base entry i r).mp hr with ⟨hrelev, hr'⟩
            refine ⟨[entry], cc, FileAt.step _ _ _ _ _ hmem (FileAt.here cc),
              hig, ?_, hr'⟩
            simpa [lastSeg] using hrelev
        · rintro ⟨rel, c', hfa, hig, hrelev, hr⟩
          rcases fileAt_dirSome_iff.mp hfa with ⟨name, child, rel', hmem, rfl, hfa'⟩
          have hsp : base ++ name :: rel' = (base ++ [name]) ++ rel' := by simp
          have hig2 : should_ignore ((base ++ [name]) ++ rel') = false := by
            rw [← hsp]
            exact hig
          have hig1 : should_ignore (base ++ [name]) = false := by
            rw [should_ignore_append, Bool.or_eq_false_iff] at hig2
            exact hig2.1
          refine ⟨(name, child), mem_sortEntries.mpr hmem, hig1, ?_⟩
          cases child with
          | file cc =>
            rcases fileAt_file_iff.mp hfa' with ⟨rfl, rfl⟩
            refine Or.inr ⟨rfl, ?_⟩
            rw [mem_recordForFile_iff]
            refine ⟨?_, hr⟩
            simpa [lastSeg] using hrelev
          | dir ls =>
            refine Or.inl ⟨rfl, ?_⟩
            rw [ih _ (hsize _ hmem) _ _ r]
            have hne : rel' ≠ [] := fileAt_dir_ne_nil hfa'
            refine ⟨rel', c', hfa', hig2, ?_, ?_⟩
            · rw [lastSeg_cons_of_ne _ hne] at hrelev
              exact hrelev
            · rw [hr]
              exact (recordAt_cons _ _ _ _).symm

theorem mem_walkNode_iff (t : Node) (base : List String) (i : Nat) (r : FileRec) :
    r ∈ (walkNode t base i).2 ↔
      ∃ rel c, FileAt t rel c ∧ should_ignore (base ++ rel) = false ∧
        isRelevantName (lastSeg rel) = true ∧ r = recordAt base rel i :=
  mem_walkNode_aux (nodeSize t) t (le_refl _) base i r

/-! ## Tree lines: every reachable, non-ignored entry leaves its line -/

theorem lastSeg_singleton (a : String) : lastSeg [a] = a := by
  simp [lastSeg]

theorem walkEntriesGo_chunk (es : List (String × Node)) (base : List String)
    (i : Nat) (p : String × Node) (hp : p ∈ es)
    (hig : should_ignore (base ++ [p.1]) = false) :
    ∃ pre post, (walkEntriesGo (fun t b j => walkNode t b j) es base i).1
      = pre ++ entryChunk base i p ++ post := by
  induction es with
  | nil => cases hp
  | cons q rest ih =>
    obtain ⟨entry, child⟩ := q
    rcases List.mem_cons.mp hp with hq | hrest
    · subst hq
      cases child with
      | file cc =>
        rw [walkEntriesGo_cons_file _ _ _ _ _ _ hig]
        refine ⟨"", (walkEntriesGo (fun t b j => walkNode t b j) rest base i).1, ?_⟩
        simp [entryChunk, String.append_assoc]
      | dir ls =>
        rw [walkEntriesGo_cons_dir _ _ _ _ _ _ hig]
        refine ⟨"", (walkEntriesGo (fun t b j => walkNode t b j) rest base i).1, ?_⟩
        simp [entryChunk, String.append_assoc]
    · rcases ih hrest with ⟨pre, post, heq⟩
      by_cases hig2 : should_ignore (base ++ [entry]) = true
      · rw [walkEntriesGo_cons_ignored _ _ _ _ _ _ hig2]
        exact ⟨pre, post, heq⟩
      · have hig2' : should_ignore (base ++ [entry]) = false := by simpa using hig2
        cases child with
        | file cc =>
          rw [walkEntriesGo_cons_file _ _ _ _ _ _ hig2']
          refine ⟨indentUnit i ++ entry ++ "\n" ++ pre, post, ?_⟩
          rw [heq]
          simp [String.append_assoc]
        | dir ls =>
          rw [walkEntriesGo_cons_dir _ _ _ _ _ _ hig2']
          refine ⟨indentUnit i ++ "[" ++ entry ++ "/]\n"
            ++ (walkNode (.dir ls) (base ++ [entry]) (i + 1)).1 ++ pre, post, ?_⟩
          rw [heq]
          simp [String.append_assoc]

theorem treeLine_aux : ∀ (n : Nat) (t : Node), nodeSize t ≤ n →
    ∀ (base : List String) (i : Nat) (rel : List String) (c : ReadResult),
    FileAt t rel c → rel ≠ [] → should_ignore (base ++ rel) = false →
    ∃ pre post, (walkNode t base i).1
      = pre ++ indentUnit (i + rel.length - 1) ++ lastSeg rel ++ "\n" ++ post := by
  intro n
  induction n with
  | zero =>
    intro t h
    exact absurd h (by have := nodeSize_pos t; omega)
  | succ n ih =>
    intro t ht base i rel c hfa hne hig
    cases t with
    | file cc =>
      rcases fileAt_file_iff.mp hfa with ⟨rfl, rfl⟩
      exact absurd rfl hne
    | dir o =>
      cases o with
      | none => exact absurd hfa fileAt_dirNone
      | some l =>
        have hsize : ∀ p : String × Node, p ∈ l → nodeSize p.2 ≤ n := by
          intro p hp
          have h1 := mem_entriesSize_lt hp
          have h2 : nodeSize (Node.dir (some l)) = 1 + entriesSize l := by
            simp [nodeSize]
          omega
        rcases fileAt_dirSome_iff.mp hfa with ⟨name, child, rel', hmem, rfl, hfa'⟩
        have hsp : base ++ name :: rel' = (base ++ [name]) ++ rel' := by simp
        have hig2 : should_ignore ((base ++ [name]) ++ rel') = false := by
          rw [← hsp]
          exact hig
        have hig1 : should_ignore (base ++ [name]) = false := by
          rw [should_ignore_append, Bool.or_eq_false_iff] at hig2
          exact hig2.1
        rw [walkNode_dirSome]
        rcases walkEntriesGo_chunk (sortEntries l) base i (name, child)
          (mem_sortEntries.mpr hmem) hig1 with ⟨pre, post, heq⟩
        cases child with
        | file cc =>
          rcases fileAt_file_iff.mp hfa' with ⟨rfl, rfl⟩
          refine ⟨pre, post, ?_⟩
          rw [heq]
          simp [entryChunk, lastSeg_singleton, String.append_assoc]
        | dir ls =>
          have hne' : rel' ≠ [] := fileAt_dir_ne_nil hfa'
          rcases ih _ (hsize _ hmem) (base ++ [name]) (i + 1) rel' c hfa' hne' hig2
            with ⟨pre2, post2, heq2⟩
          refine ⟨pre ++ (indentUnit i ++ "[" ++ name ++ "/]\n") ++ pre2, post2 ++ post, ?_⟩
          rw [heq]
          simp only [entryChunk]
          rw [heq2]
          have harith : (i + 1) + rel'.length - 1 = i + (name :: rel').length - 1 := by
            simp only [List.length_cons]
            omega
          rw [harith, lastSeg_cons_of_ne _ hne']
          simp [String.append_assoc]

theorem treeLine (t : Node) (base : List String) (i : Nat) (rel : List String)
    (c : ReadResult) (hfa : FileAt t rel c) (hne : rel ≠ [])
    (hig : should_ignore (base ++ rel) = false) :
    ∃ pre post, (walkNode t base i).1
      = pre ++ indentUnit (i + rel.length - 1) ++ lastSeg rel ++ "\n" ++ post :=
  treeLine_aux (nodeSize t) t (le_refl _) base i rel c hfa hne hig

theorem lastSeg_append (p q : List String) (h : q ≠ []) :
    lastSeg (p ++ q) = lastSeg q := by
  induction p with
  | nil => rfl
  | cons a p ih =>
    have hne : p ++ q ≠ [] := by
      simp [h]
    rw [List.cons_append, lastSeg_cons_of_ne _ hne, ih]

theorem walkEntriesGo_all_ignored
    (f : Node → List String → Nat → String × List FileRec)
    (es : List (String × Node)) (base : List String) (i : Nat)
    (h : ∀ p ∈ es, should_ignore (base ++ [p.1]) = true) :
    walkEntriesGo f es base i = ("", []) := by
  induction es with
  | nil => rfl
  | cons p rest ih =>
    obtain ⟨entry, child⟩ := p
    rw [walkEntriesGo_cons_ignored _ _ _ _ _ _ (h _ (List.mem_cons_self _ _))]
    exact ih (fun q hq => h q (List.mem_cons_of_mem _ hq))

theorem should_ignore_of_base (base q : List String)
    (h : should_ignore base = true) : should_ignore (base ++ q) = true := by
  rw [should_ignore_append, h, Bool.true_or]

/-! Claim C1. -/

/-- C1: for every root tree, the ordered record list of the walk contains
exactly the files reachable from the root that are not excluded by the
ignore set and are relevant (special build filename, or recognized
suffix), each carrying the classification of §4.1 and its depth, and every
reachable non-ignored file — relevant or not — contributes a tree line at
its depth (so non-relevant files contribute a tree line but, by the first
part, no record). -/
theorem C1_walk_records_exact (t : Node) (base : List String) :
    (∀ r : FileRec, r ∈ (build_directory_tree_local t base).2 ↔
      ∃ rel c, FileAt t rel c ∧ should_ignore (base ++ rel) = false ∧
        isRelevantName (lastSeg rel) = true ∧ r = recordAt base rel 0) ∧
    (∀ rel c, FileAt t rel c → rel ≠ [] →
      should_ignore (base ++ rel) = false →
      ∃ pre post, (build_directory_tree_local t base).1
        = pre ++ indentUnit (rel.length - 1) ++ lastSeg rel ++ "\n" ++ post) := by
  constructor
  · intro r
    exact mem_walkNode_iff t base 0 r
  · intro rel c hfa hne hig
    have h := treeLine t base 0 rel c hfa hne hig
    simpa using h

theorem C1_walk_records_exact_witness :
    (∃ pre post, (build_directory_tree_local fsC1 ["root"]).1
      = pre ++ indentUnit 1 ++ "notes.txt" ++ "\n" ++ post) ∧
    (FileRec.mk 1 ["root", "src", "Main.java"] Classification.SOURCE
      ∈ (build_directory_tree_local fsC1 ["root"]).2) := by
  constructor
  · have h := (C1_walk_records_exact fsC1 ["root"]).2 ["src", "notes.txt"]
      (.text "n")
      (FileAt.step _ _ _ _ _ (List.mem_singleton.mpr rfl)
        (FileAt.step _ _ _ _ _ (List.mem_cons_of_mem _ (List.mem_singleton.mpr rfl))
          (FileAt.here _)))
      (by simp) (by decide)
    simpa [lastSeg] using h
  · exact ((C1_walk_records_exact fsC1 ["root"]).1 _).mpr
      ⟨["src", "Main.java"], .text "m",
        FileAt.step _ _ _ _ _ (List.mem_singleton.mpr rfl)
          (FileAt.step _ _ _ _ _ (List.mem_cons_self _ _) (FileAt.here _)),
        by decide, by decide, by decide⟩

/-! Claim C2. -/

/-- C2: every record produced by the walk carries the classification of
the fixed-precedence rule: a special build filename yields BUILD_CONFIG
unconditionally (even when a recognized suffix also matches and even when
a path segment equals "test"); otherwise a case-insensitive "test"
segment yields TEST; otherwise SOURCE. -/
theorem C2_classification_precedence (t : Node) (base : List String)
    (r : FileRec) (h : r ∈ (build_directory_tree_local t base).2) :
    r.kind = classifySpec r.path ∧
    (lastSeg r.path ∈ SPECIAL_BUILD_FILES → r.kind = Classification.BUILD_CONFIG) ∧
    (lastSeg r.path ∉ SPECIAL_BUILD_FILES → hasTestSegment r.path = true →
      r.kind = Classification.TEST) ∧
    (lastSeg r.path ∉ SPECIAL_BUILD_FILES → hasTestSegment r.path = false →
      r.kind = Classification.SOURCE) := by
  have hk : r.kind = classifySpec r.path := by
    rcases ((C1_walk_records_exact t base).1 r).mp h with ⟨rel, c, -, -, -, hr⟩
    rw [hr]
    rfl
  refine ⟨hk, ?_, ?_, ?_⟩
  · intro hsp
    rw [hk]
    simp [classifySpec, hsp]
  · intro hsp htest
    rw [hk]
    simp [classifySpec, hsp, htest]
  · intro hsp htest
    rw [hk]
    simp [classifySpec, hsp, htest]

theorem C2_classification_precedence_witness :
    (FileRec.mk 4 ["root", "project", "src", "test", "java", "pom.xml"]
      Classification.BUILD_CONFIG).kind = Classification.BUILD_CONFIG ∧
    (FileRec.mk 4 ["root", "project", "src", "test", "java", "Foo.java"]
      Classification.TEST).kind = Classification.TEST := by
  constructor
  · exact (C2_classification_precedence fsC2 ["root"] _ (by decide)).2.1 (by decide)
  · exact (C2_classification_precedence fsC2 ["root"] _ (by decide)).2.2.1
      (by decide) (by decide)

/-! Claim C10. -/

/-- C10: the ignore test and the test-segment test see the scan root's own
segments, because they are evaluated on the full joined path. A root whose
path contains an ignored segment yields an empty tree text and an empty
record list, and under a root whose path contains a case-insensitive
"test" segment every recorded file that is not a special build filename
is classified TEST. -/
theorem C10_root_segments (t : Node) (base : List String) :
    (should_ignore base = true → build_directory_tree_local t base = ("", [])) ∧
    (hasTestSegment base = true → ∀ r ∈ (build_directory_tree_local t base).2,
      lastSeg r.path ∉ SPECIAL_BUILD_FILES → r.kind = Classification.TEST) := by
  constructor
  · intro hig
    cases t with
    | file c => exact walkNode_file c base 0
    | dir o =>
      cases o with
      | none => exact walkNode_dirNone base 0
      | some l =>
        show walkNode (.dir (some l)) base 0 = ("", [])
        rw [walkNode_dirSome]
        exact walkEntriesGo_all_ignored _ _ _ _
          (fun p _ => should_ignore_of_base base [p.1] hig)
  · intro htest r hr hsp
    rcases ((C1_walk_records_exact t base).1 r).mp hr with ⟨rel, c, -, -, -, hrec⟩
    have hpath : r.path = base ++ rel := by
      rw [hrec]
      rfl
    have htest2 : hasTestSegment r.path = true := by
      rw [hpath, hasTestSegment_append, htest, Bool.true_or]
    have hk := (C2_classification_precedence t base r hr).2.2.1 hsp htest2
    exact hk

theorem C10_root_segments_witness :
    (build_directory_tree_local fsC10 ["home", "target", "proj"] = ("", [])) ∧
    ((FileRec.mk 0 ["ci", "Test", "App.java"] Classification.TEST).kind
      = Classification.TEST) := by
  constructor
  · exact (C10_root_segments fsC10 ["home", "target", "proj"]).1 (by decide)
  · exact (C10_root_segments fsC10 ["ci", "Test"]).2 (by decide) _ (by decide)
      (by decide)

/-! Claim C9. -/

/-- C9: the rendered snippet of a record with depth `d` is a path line
(the path made relative to the root) followed by a fenced block with the
loaded content, each line prefixed by `d` indent units, and the same
`d`-unit indentation prefixes that file's own line in the tree text. -/
theorem C9_snippet_indent (t : Node) (base : List String) (r : FileRec)
    (h : r ∈ (build_directory_tree_local t base).2) :
    (renderSnippet t base r
      = "\n" ++ indentUnit r.indent ++ (relPathString base r.path ++ ":\n")
        ++ indentUnit r.indent ++ ("```\n"
        ++ readRel t (r.path.drop base.length) ++ "\n")
        ++ indentUnit r.indent ++ "```\n") ∧
    (∃ pre post, (build_directory_tree_local t base).1
      = pre ++ indentUnit r.indent ++ lastSeg r.path ++ "\n" ++ post) := by
  constructor
  · simp [renderSnippet, String.append_assoc]
  · rcases ((C1_walk_records_exact t base).1 r).mp h with
      ⟨rel, c, hfa, hig, hrelev, hrec⟩
    have hne : rel ≠ [] := by
      intro hn
      subst hn
      exact absurd hrelev (by decide)
    have hindent : r.indent = rel.length - 1 := by
      rw [hrec]
      simp [recordAt]
    have hpath : r.path = base ++ rel := by
      rw [hrec]
      rfl
    have hlast : lastSeg r.path = lastSeg rel := by
      rw [hpath]
      exact lastSeg_append base rel hne
    rcases (C1_walk_records_exact t base).2 rel c hfa hne hig with ⟨pre, post, heq⟩
    refine ⟨pre, post, ?_⟩
    rw [hindent, hlast]
    exact heq

theorem C9_snippet_indent_witness :
    (renderSnippet fsC1 ["root"]
        (FileRec.mk 1 ["root", "src", "Main.java"] Classification.SOURCE)
      = "\n" ++ indentUnit 1 ++ ("src/Main.java" ++ ":\n")
        ++ indentUnit 1 ++ ("```\n" ++ "m" ++ "\n")
        ++ indentUnit 1 ++ "```\n") ∧
    (∃ pre post, (build_directory_tree_local fsC1 ["root"]).1
      = pre ++ indentUnit 1 ++ "Main.java" ++ "\n" ++ post) := by
  have h := C9_snippet_indent fsC1 ["root"]
    (FileRec.mk 1 ["root", "src", "Main.java"] Classification.SOURCE) (by decide)
  exact ⟨h.1, h.2⟩

/-! Claim C3. -/

/-- C3: ignoring is path-segment-exact — a path is skipped (no tree line,
no recursion, no record) iff some segment of it is exactly a member of the
ignore set; an entry named `target` is dropped with its whole subtree
unexamined, while `subtarget` is walked normally. -/
theorem C3_ignore_segment_exact :
    (∀ p : List String, should_ignore p = true ↔
      ∃ seg, seg ∈ p ∧ seg ∈ IGNORE_PATTERNS) ∧
    (∀ (f : Node → List String → Nat → String × List FileRec)
        (entry : String) (child : Node) (rest : List (String × Node))
        (base : List String) (i : Nat),
      should_ignore (base ++ [entry]) = true →
      walkEntriesGo f ((entry, child) :: rest) base i
        = walkEntriesGo f rest base i) ∧
    (∀ (f : Node → List String → Nat → String × List FileRec)
        (sub : Node) (rest : List (String × Node))
        (base : List String) (i : Nat),
      walkEntriesGo f (("target", sub) :: rest) base i
        = walkEntriesGo f rest base i) ∧
    should_ignore ["home", "subtarget"] = false ∧
    should_ignore ["home", "target"] = true ∧
    build_directory_tree_local fsC3 ["home"]
      = ("[subtarget/]\n    Main.java\n",
         [⟨1, ["home", "subtarget", "Main.java"], Classification.SOURCE⟩]) := by
  refine ⟨should_ignore_iff, ?_, ?_, by decide, by decide, by decide⟩
  · intro f entry child rest base i hig
    exact walkEntriesGo_cons_ignored f entry child rest base i hig
  · intro f sub rest base i
    refine walkEntriesGo_cons_ignored f _ sub rest base i ?_
    rw [should_ignore_append]
    have h2 : should_ignore ["target"] = true := by decide
    rw [h2, Bool.or_true]

theorem C3_ignore_segment_exact_witness :
    walkEntriesGo (fun t b j => walkNode t b j)
        [(".git", .dir (some [("config", .file (.text "c"))])),
         ("A.java", .file (.text "a"))] ["repo"] 0
      = walkEntriesGo (fun t b j => walkNode t b j)
          [("A.java", .file (.text "a"))] ["repo"] 0 :=
  C3_ignore_segment_exact.2.1 _ ".git" _ _ ["repo"] 0 (by decide)

/-! Claim C4. -/

/-- C4: every failure the traversal or the loader can meet is recovered
locally: a root that is not a listable directory yields the empty result,
an unlistable subdirectory contributes its tree line, an empty subtree and
no records while the walk of its siblings continues, and a bad file is
rendered as a placeholder string; all functions are total, so nothing
propagates to the caller. -/
theorem C4_local_recovery :
    (∀ (c : ReadResult) (base : List String) (i : Nat),
      walkNode (.file c) base i = ("", [])) ∧
    (∀ (base : List String) (i : Nat),
      walkNode (.dir none) base i = ("", [])) ∧
    (∀ (entry : String) (rest : List (String × Node)) (base : List String)
        (i : Nat),
      should_ignore (base ++ [entry]) = false →
      walkEntriesGo (fun t b j => walkNode t b j) ((entry, .dir none) :: rest)
          base i
        = (indentUnit i ++ "[" ++ entry ++ "/]\n"
             ++ (walkEntriesGo (fun t b j => walkNode t b j) rest base i).1,
           (walkEntriesGo (fun t b j => walkNode t b j) rest base i).2)) ∧
    (get_local_file_content .undecodable
      = "Binary or non-UTF8 file, cannot display text content.") ∧
    (∀ msg, get_local_file_content (.readError msg)
      = "Error reading file: " ++ msg) := by
  refine ⟨walkNode_file, walkNode_dirNone, ?_, rfl, fun msg => rfl⟩
  intro entry rest base i hig
  rw [walkEntriesGo_cons_dir _ _ _ _ _ _ hig]
  rw [walkNode_dirNone]
  simp

theorem C4_local_recovery_witness :
    walkEntriesGo (fun t b j => walkNode t b j)
        [("secret", .dir none), ("B.java", .file (.text "b"))] ["repo"] 0
      = (indentUnit 0 ++ "[" ++ "secret" ++ "/]\n"
           ++ (walkEntriesGo (fun t b j => walkNode t b j)
                [("B.java", .file (.text "b"))] ["repo"] 0).1,
         (walkEntriesGo (fun t b j => walkNode t b j)
            [("B.java", .file (.text "b"))] ["repo"] 0).2) :=
  C4_local_recovery.2.2.1 "secret" _ ["repo"] 0 (by decide)

/-! Claim C5. The code checks the loaded README with Python truthiness
(`if readme_content:`), so an existing README whose loaded content is the
empty string renders the "Not found" line; the claim as stated fails
there. -/

/-- C5 counterexample: in `fsEmptyReadme` the file `README.md` exists
directly under the root, yet the assembled document begins with the
literal "README.md: Not found!" line, not with a block naming the file —
refuting the claim as stated. -/
theorem C5_counterexample :
    (findEntry fsEmptyReadme "README.md").isSome = true ∧
    retrieve_local_repo_info fsEmptyReadme ["root"]
      = "README.md: Not found!\n\nDirectory Structure:\nREADME.md\n\n"
        ++ "\n=== Source Files ===\n" ++ "\nREADME.md:\n```\n\n```\n" ∧
    ¬ ∃ rest, retrieve_local_repo_info fsEmptyReadme ["root"]
        = "README.md:\n```\n\n```\n\n" ++ rest := by
  refine ⟨rfl, by decide, ?_⟩
  rintro ⟨rest, heq⟩
  have h3 : (retrieve_local_repo_info fsEmptyReadme ["root"]).data.take 11
      = (("README.md:\n```\n\n```\n\n" : String).data ++ rest.data).take 11 := by
    rw [heq]
    rfl
  rw [List.take_append_of_le_length (by decide)] at h3
  exact absurd h3 (by decide)

/-- C5 amended: README.md is tried first, then README.MD, directly under
the root; when the first of the two that exists has a loaded content that
is a non-empty string, the document begins with a block naming that file
and holding the loaded content in a fenced block; otherwise — neither
exists, or the loaded content of the chosen one is the empty string — the
document begins with the literal "README.md: Not found!" line and a blank
line. -/
theorem append_chain7 (a b c d e f g : String) :
    ∃ rest, a ++ b ++ c ++ d ++ e ++ f ++ g = a ++ rest :=
  ⟨b ++ (c ++ (d ++ (e ++ (f ++ g)))), by simp [String.append_assoc]⟩

theorem retrieve_eq_readme_append (t : Node) (base : List String) :
    ∃ rest, retrieve_local_repo_info t base = readmeBlock t ++ rest := by
  simp only [retrieve_local_repo_info]
  exact append_chain7 _ _ _ _ _ _ _

/-- C5 amended: README.md is tried first, then README.MD, directly under
the root; when the first of the two that exists has a loaded content that
is a non-empty string, the document begins with a block naming that file
and holding the loaded content in a fenced block; otherwise — neither
exists, or the loaded content of the chosen one is the empty string — the
document begins with the literal "README.md: Not found!" line and a blank
line. -/
theorem C5_readme_block (t : Node) (base : List String) :
    (∀ n, findEntry t "README.md" = some n → readNodeContent n ≠ "" →
      ∃ rest, retrieve_local_repo_info t base
        = "README.md" ++ ":\n```\n" ++ readNodeContent n ++ "\n```\n\n" ++ rest) ∧
    (∀ n, findEntry t "README.md" = none → findEntry t "README.MD" = some n →
      readNodeContent n ≠ "" →
      ∃ rest, retrieve_local_repo_info t base
        = "README.MD" ++ ":\n```\n" ++ readNodeContent n ++ "\n```\n\n" ++ rest) ∧
    (findEntry t "README.md" = none → findEntry t "README.MD" = none →
      ∃ rest, retrieve_local_repo_info t base
        = "README.md: Not found!\n\n" ++ rest) ∧
    (∀ n, findEntry t "README.md" = some n → readNodeContent n = "" →
      ∃ rest, retrieve_local_repo_info t base
        = "README.md: Not found!\n\n" ++ rest) ∧
    (∀ n, findEntry t "README.md" = none → findEntry t "README.MD" = some n →
      readNodeContent n = "" →
      ∃ rest, retrieve_local_repo_info t base
        = "README.md: Not found!\n\n" ++ rest) := by
  obtain ⟨rest0, hr0⟩ := retrieve_eq_readme_append t base
  refine ⟨?_, ?_, ?_, ?_, ?_⟩
  · intro n h1 h2
    have hb : readmeBlock t
        = "README.md" ++ ":\n```\n" ++ readNodeContent n ++ "\n```\n\n" := by
      simp only [readmeBlock, readmeLookup, h1]
      rw [if_neg h2]
    exact ⟨rest0, by rw [hr0, hb]⟩
  · intro n h0 h1 h2
    have hb : readmeBlock t
        = "README.MD" ++ ":\n```\n" ++ readNodeContent n ++ "\n```\n\n" := by
      simp only [readmeBlock, readmeLookup, h0, h1]
      rw [if_neg h2]
    exact ⟨rest0, by rw [hr0, hb]⟩
  · intro h0 h1
    have hb : readmeBlock t = "README.md: Not found!\n\n" := by
      simp only [readmeBlock, readmeLookup, h0, h1]
    exact ⟨rest0, by rw [hr0, hb]⟩
  · intro n h1 h2
    have hb : readmeBlock t = "README.md: Not found!\n\n" := by
      simp only [readmeBlock, readmeLookup, h1]
      rw [if_pos h2]
    exact ⟨rest0, by rw [hr0, hb]⟩
  · intro n h0 h1 h2
    have hb : readmeBlock t = "README.md: Not found!\n\n" := by
      simp only [readmeBlock, readmeLookup, h0, h1]
      rw [if_pos h2]
    exact ⟨rest0, by rw [hr0, hb]⟩

theorem C5_readme_block_witness :
    (∃ rest, retrieve_local_repo_info fsReadmeHi ["root"]
      = "README.md" ++ ":\n```\n" ++ readNodeContent (.file (.text "Hi"))
          ++ "\n```\n\n" ++ rest) ∧
    (∃ rest, retrieve_local_repo_info (Node.dir (some [])) ["root"]
      = "README.md: Not found!\n\n" ++ rest) := by
  constructor
  · exact (C5_readme_block fsReadmeHi ["root"]).1 (.file (.text "Hi")) rfl
      (by decide)
  · exact (C5_readme_block (Node.dir (some [])) ["root"]).2.2.1 rfl rfl

/-! Claims C6 and C7: grouping of snippets into the three sections. -/

theorem buildSections_eq (t : Node) (base : List String) (rs : List FileRec) :
    buildSections t base rs
      = ((rs.filter (fun r => r.kind == Classification.BUILD_CONFIG)).map
           (renderSnippet t base),
         (rs.filter (fun r => r.kind == Classification.SOURCE)).map
           (renderSnippet t base),
         (rs.filter (fun r => r.kind == Classification.TEST)).map
           (renderSnippet t base)) := by
  induction rs with
  | nil => rfl
  | cons r rest ih =>
    simp only [buildSections, ih]
    cases hk : r.kind <;> simp [List.filter_cons, hk]

/-- C6: the content loader is total — it yields the decoded text, the
fixed non-UTF-8 placeholder, or the error placeholder with the failure
description, and never anything else; and a record whose content is
undecodable still contributes exactly one snippet while all other records
are still assembled (every record of the list lands in one of the three
sections). -/
theorem C6_loader_total (t : Node) (base : List String) (rs : List FileRec) :
    (∀ s, get_local_file_content (.text s) = s) ∧
    (get_local_file_content .undecodable
      = "Binary or non-UTF8 file, cannot display text content.") ∧
    (∀ msg, get_local_file_content (.readError msg)
      = "Error reading file: " ++ msg) ∧
    ((buildSections t base rs).1.length + (buildSections t base rs).2.1.length
        + (buildSections t base rs).2.2.length = rs.length) ∧
    (∀ r ∈ rs, renderSnippet t base r
      ∈ (buildSections t base rs).1 ++ (buildSections t base rs).2.1
          ++ (buildSections t base rs).2.2) := by
  refine ⟨fun s => rfl, rfl, fun msg => rfl, ?_, ?_⟩
  · induction rs with
    | nil => rfl
    | cons r rest ih =>
      cases hk : r.kind <;> simp [buildSections, hk] <;> omega
  · intro r hr
    rw [buildSections_eq]
    simp only [List.mem_append, List.mem_map]
    cases hk : r.kind
    · exact Or.inl (Or.inl ⟨r, List.mem_filter.mpr ⟨hr, by simp [hk]⟩, rfl⟩)
    · exact Or.inr ⟨r, List.mem_filter.mpr ⟨hr, by simp [hk]⟩, rfl⟩
    · exact Or.inl (Or.inr ⟨r, List.mem_filter.mpr ⟨hr, by simp [hk]⟩, rfl⟩)

theorem C6_loader_total_witness :
    renderSnippet fsC1 ["root"]
        (FileRec.mk 0 ["root", "b.bin"] Classification.SOURCE)
      ∈ (buildSections fsC1 ["root"]
          [FileRec.mk 0 ["root", "a.bin"] Classification.SOURCE,
           FileRec.mk 0 ["root", "b.bin"] Classification.SOURCE]).1
        ++ (buildSections fsC1 ["root"]
          [FileRec.mk 0 ["root", "a.bin"] Classification.SOURCE,
           FileRec.mk 0 ["root", "b.bin"] Classification.SOURCE]).2.1
        ++ (buildSections fsC1 ["root"]
          [FileRec.mk 0 ["root", "a.bin"] Classification.SOURCE,
           FileRec.mk 0 ["root", "b.bin"] Classification.SOURCE]).2.2 :=
  (C6_loader_total fsC1 ["root"] _).2.2.2.2 _ (by simp)

/-- C7: the assembled document is the README block, the tree block, and
then — in this fixed order — the Build & Config, Source, and Test
sections, where each section is the header plus its group's snippets in
discovery order when the group is nonempty, and the empty string (zero
bytes, no header) when the group is empty. -/
theorem C7_sections_order (t : Node) (base : List String) :
    (retrieve_local_repo_info t base
      = readmeBlock t ++ "Directory Structure:\n"
          ++ (build_directory_tree_local t base).1 ++ "\n"
          ++ sectionText "\n=== Build & Config Files ===\n"
              (((build_directory_tree_local t base).2.filter
                  (fun r => r.kind == Classification.BUILD_CONFIG)).map
                (renderSnippet t base))
          ++ sectionText "\n=== Source Files ===\n"
              (((build_directory_tree_local t base).2.filter
                  (fun r => r.kind == Classification.SOURCE)).map
                (renderSnippet t base))
          ++ sectionText "\n=== Test Files ===\n"
              (((build_directory_tree_local t base).2.filter
                  (fun r => r.kind == Classification.TEST)).map
                (renderSnippet t base))) ∧
    (∀ h : String, sectionText h [] = "") ∧
    (∀ (h sn : String) (rest : List String),
      sectionText h (sn :: rest) = h ++ String.join (sn :: rest)) := by
  refine ⟨?_, fun h => rfl, fun h sn rest => rfl⟩
  simp only [retrieve_local_repo_info, buildSections_eq]

/-! Claim C8: determinism of the walk and the assembly. The operating
system may list an unchanged directory in any order; the per-level sort
makes the output independent of that order. We prove that two listings of
the same tree (permuted at every level) produce byte-identical tree text,
record lists and documents, provided each directory's entry names are
distinct — which is a filesystem invariant. -/

theorem charLtB_irrefl (a : Char) : charLtB a a = false := by
  simp [charLtB]

theorem charLtB_trans {a b c : Char} (h1 : charLtB a b = true)
    (h2 : charLtB b c = true) : charLtB a c = true := by
  simp [charLtB] at h1 h2 ⊢
  omega

theorem charLtB_eq {a b : Char} (h1 : charLtB a b = false)
    (h2 : charLtB b a = false) : a = b := by
  simp [charLtB] at h1 h2
  have hv : a.toNat = b.toNat := by omega
  exact Char.eq_of_val_eq (UInt32.ext hv)

theorem charLtB_tri (a b : Char) :
    charLtB a b = true ∨ charLtB b a = true ∨ a = b := by
  by_cases h1 : charLtB a b = true
  · exact Or.inl h1
  · by_cases h2 : charLtB b a = true
    · exact Or.inr (Or.inl h2)
    · exact Or.inr (Or.inr (charLtB_eq (by simpa using h1) (by simpa using h2)))

theorem charListLtB_irrefl : ∀ a : List Char, charListLtB a a = false := by
  intro a
  induction a with
  | nil => rfl
  | cons x xs ih => simp [charListLtB, charLtB_irrefl, ih]

theorem charLtB_asymm {a b : Char} (h : charLtB a b = true) :
    charLtB b a = false := by
  simp [charLtB] at h ⊢
  omega

theorem charListLtB_trans : ∀ {a b c : List Char},
    charListLtB a b = true → charListLtB b c = true →
    charListLtB a c = true := by
  intro a
  induction a with
  | nil =>
    intro b c h1 h2
    cases b with
    | nil => exact h2
    | cons y ys =>
      cases c with
      | nil => simp [charListLtB] at h2
      | cons z zs => rfl
  | cons x xs ih =>
    intro b c h1 h2
    cases b with
    | nil => simp [charListLtB] at h1
    | cons y ys =>
      cases c with
      | nil => simp [charListLtB] at h2
      | cons z zs =>
        simp only [charListLtB] at h1 h2 ⊢
        rcases charLtB_tri x y with hxy | hyx | hxyeq
        · rcases charLtB_tri y z with hyz | hzy | hyzeq
          · simp [charLtB_trans hxy hyz]
          · rw [if_neg (by simp [charLtB_asymm hzy]), if_pos hzy] at h2
            cases h2
          · subst hyzeq
            simp [hxy]
        · rw [if_neg (by simp [charLtB_asymm hyx]), if_pos hyx] at h1
          cases h1
        · subst hxyeq
          rw [if_neg (by simp [charLtB_irrefl]),
            if_neg (by simp [charLtB_irrefl])] at h1
          rcases charLtB_tri x z with hxz | hzx | hxzeq
          · simp [hxz]
          · rw [if_neg (by simp [charLtB_asymm hzx]), if_pos hzx] at h2
            cases h2
          · subst hxzeq
            rw [if_neg (by simp [charLtB_irrefl]),
              if_neg (by simp [charLtB_irrefl])] at h2 ⊢
            exact ih h1 h2

theorem charListLtB_eq : ∀ {a b : List Char},
    charListLtB a b = false → charListLtB b a = false → a = b := by
  intro a
  induction a with
  | nil =>
    intro b h1 h2
    cases b with
    | nil => rfl
    | cons y ys => simp [charListLtB] at h1
  | cons x xs ih =>
    intro b h1 h2
    cases b with
    | nil => simp [charListLtB] at h2
    | cons y ys =>
      simp only [charListLtB] at h1 h2
      rcases charLtB_tri x y with hxy | hyx | hxyeq
      · rw [if_pos hxy] at h1
        cases h1
      · rw [if_pos hyx] at h2
        cases h2
      · subst hxyeq
        rw [if_neg (by simp [charLtB_irrefl]),
          if_neg (by simp [charLtB_irrefl])] at h1 h2
        rw [ih h1 h2]

theorem strLeB_total (a b : String) : strLeB a b = true ∨ strLeB b a = true := by
  by_cases h : charListLtB b.data a.data = true
  · right
    simp only [strLeB, strLtB, Bool.not_eq_true']
    by_cases h2 : charListLtB a.data b.data = true
    · have h3 := charListLtB_trans h2 h
      rw [charListLtB_irrefl] at h3
      cases h3
    · simpa using h2
  · left
    simp only [strLeB, strLtB, Bool.not_eq_true']
    simpa using h

theorem strLeB_trans {a b c : String} (h1 : strLeB a b = true)
    (h2 : strLeB b c = true) : strLeB a c = true := by
  simp only [strLeB, strLtB, Bool.not_eq_true'] at h1 h2 ⊢
  by_cases hbc : charListLtB b.data c.data = true
  · by_cases hca : charListLtB c.data a.data = true
    · have h3 := charListLtB_trans hbc hca
      rw [h1] at h3
      cases h3
    · simpa using hca
  · have hbc' : charListLtB b.data c.data = false := by simpa using hbc
    have heq : b.data = c.data := charListLtB_eq hbc' h2
    rw [← heq]
    exact h1

theorem strLtB_of_le_ne {a b : String} (hle : strLeB a b = true)
    (hne : a ≠ b) : strLtB a b = true := by
  have hba : charListLtB b.data a.data = false := by
    simpa only [strLeB, strLtB, Bool.not_eq_true'] using hle
  by_cases h : strLtB a b = true
  · exact h
  · have h' : charListLtB a.data b.data = false := by
      simpa [strLtB] using h
    exact absurd (String.ext (charListLtB_eq h' hba)) hne

theorem strLtB_asymm {a b : String} (h1 : strLtB a b = true)
    (h2 : strLtB b a = true) : False := by
  have h3 := charListLtB_trans h1 h2
  rw [charListLtB_irrefl] at h3
  cases h3

/-! Sorted permutations of duplicate-free listings coincide. -/

theorem sortEntries_sorted (l : List (String × Node)) :
    List.Sorted entryLeP (sortEntries l) :=
  @List.sorted_insertionSort _ entryLeP _
    ⟨fun a b => strLeB_total a.1 b.1⟩
    ⟨fun _ _ _ h1 h2 => strLeB_trans h1 h2⟩ l

theorem sorted_nodup_nameLt {s : List (String × Node)}
    (hs : List.Sorted entryLeP s) (hnd : (s.map Prod.fst).Nodup) :
    List.Sorted entryNameLt s := by
  have hs' : List.Pairwise entryLeP s := hs
  have hne : List.Pairwise (fun a b : String × Node => a.1 ≠ b.1) s :=
    List.pairwise_map.mp hnd
  exact (hs'.and hne).imp (fun h => strLtB_of_le_ne h.1 h.2)

theorem sortEntries_eq_of_perm {l₁ l₂ : List (String × Node)}
    (hp : l₁.Perm l₂) (hnd : (l₁.map Prod.fst).Nodup) :
    sortEntries l₁ = sortEntries l₂ := by
  have h1 : (sortEntries l₁).Perm (sortEntries l₂) :=
    (sortEntries_perm l₁).trans (hp.trans (sortEntries_perm l₂).symm)
  have hnd1 : ((sortEntries l₁).map Prod.fst).Nodup :=
    hnd.perm ((sortEntries_perm l₁).map _).symm
  have hnd2 : ((sortEntries l₂).map Prod.fst).Nodup :=
    (hnd.perm (hp.map _)).perm ((sortEntries_perm l₂).map _).symm
  exact @List.eq_of_perm_of_sorted _ entryNameLt
    ⟨fun a b ha hb => (strLtB_asymm ha hb).elim⟩ _ _ h1
    (sorted_nodup_nameLt (sortEntries_sorted l₁) hnd1)
    (sorted_nodup_nameLt (sortEntries_sorted l₂) hnd2)

/-! Pointwise-related listings sort to pointwise-related listings. -/

theorem forall₂_map_fst {R : Node → Node → Prop}
    {l₁ l₂ : List (String × Node)} (h : List.Forall₂ (EntryRel R) l₁ l₂) :
    l₁.map Prod.fst = l₂.map Prod.fst := by
  induction h with
  | nil => rfl
  | cons hab htail ih => simp [hab.1, ih]

theorem forall₂_name_unique {R : Node → Node → Prop}
    {l₁ l₂ : List (String × Node)} (h : List.Forall₂ (EntryRel R) l₁ l₂)
    (hnd : (l₁.map Prod.fst).Nodup) {x y : String × Node}
    (hx : x ∈ l₁) (hy : y ∈ l₂) (hxy : x.1 = y.1) : EntryRel R x y := by
  induction h with
  | nil => cases hx
  | @cons a b l₁' l₂' hab htail ih =>
    rw [List.map_cons, List.nodup_cons] at hnd
    rcases List.mem_cons.mp hx with rfl | hx'
    · rcases List.mem_cons.mp hy with rfl | hy'
      · exact hab
      · exfalso
        apply hnd.1
        rw [forall₂_map_fst htail, hxy]
        exact List.mem_map_of_mem _ hy'
    · rcases List.mem_cons.mp hy with rfl | hy'
      · exfalso
        apply hnd.1
        rw [hab.1, ← hxy]
        exact List.mem_map_of_mem _ hx'
      · exact ih hnd.2 hx' hy'

theorem sortEntries_names_eq {R : Node → Node → Prop}
    {l₁ l₂ : List (String × Node)} (hnd : (l₁.map Prod.fst).Nodup)
    (h : List.Forall₂ (EntryRel R) l₁ l₂) :
    (sortEntries l₁).map Prod.fst = (sortEntries l₂).map Prod.fst := by
  have hnames : l₁.map Prod.fst = l₂.map Prod.fst := forall₂_map_fst h
  have hnd1 : ((sortEntries l₁).map Prod.fst).Nodup :=
    hnd.perm ((sortEntries_perm l₁).map _).symm
  have hnd2 : ((sortEntries l₂).map Prod.fst).Nodup := by
    refine List.Nodup.perm ?_ ((sortEntries_perm l₂).map _).symm
    rw [← hnames]
    exact hnd
  have hperm : ((sortEntries l₁).map Prod.fst).Perm
      ((sortEntries l₂).map Prod.fst) := by
    refine ((sortEntries_perm l₁).map _).trans ?_
    rw [hnames]
    exact ((sortEntries_perm l₂).map _).symm
  have hsorted1 : List.Sorted strLtP ((sortEntries l₁).map Prod.fst) :=
    List.pairwise_map.mpr (sorted_nodup_nameLt (sortEntries_sorted l₁) hnd1)
  have hsorted2 : List.Sorted strLtP ((sortEntries l₂).map Prod.fst) :=
    List.pairwise_map.mpr (sorted_nodup_nameLt (sortEntries_sorted l₂) hnd2)
  exact @List.eq_of_perm_of_sorted _ strLtP
    ⟨fun a b ha hb => (strLtB_asymm ha hb).elim⟩ _ _ hperm hsorted1 hsorted2

theorem sortEntries_forall₂ {R : Node → Node → Prop}
    {l₁ l₂ : List (String × Node)} (hnd : (l₁.map Prod.fst).Nodup)
    (h : List.Forall₂ (EntryRel R) l₁ l₂) :
    List.Forall₂ (EntryRel R) (sortEntries l₁) (sortEntries l₂) := by
  have hmf := sortEntries_names_eq hnd h
  have hlen : (sortEntries l₁).length = (sortEntries l₂).length := by
    have := congrArg List.length hmf
    simpa using this
  rw [List.forall₂_iff_get]
  refine ⟨hlen, ?_⟩
  intro k h₁ h₂
  have hx : (sortEntries l₁).get ⟨k, h₁⟩ ∈ l₁ :=
    mem_sortEntries.mp (List.get_mem _ k h₁)
  have hy : (sortEntries l₂).get ⟨k, h₂⟩ ∈ l₂ :=
    mem_sortEntries.mp (List.get_mem _ k h₂)
  have hq : (List.map Prod.fst (sortEntries l₁))[k]?
      = (List.map Prod.fst (sortEntries l₂))[k]? := by
    rw [hmf]
  rw [List.getElem?_map, List.getElem?_map, List.getElem?_eq_getElem h₁,
    List.getElem?_eq_getElem h₂] at hq
  have hname : ((sortEntries l₁).get ⟨k, h₁⟩).1
      = ((sortEntries l₂).get ⟨k, h₂⟩).1 := by
    simpa [List.get_eq_getElem] using hq
  exact forall₂_name_unique h hnd hx hy hname

/-! Relisting: two observations of the same unchanged tree, where every
directory may be listed in a different order. -/

theorem relistEntries_forall₂ : ∀ {l₁ l₂ : List (String × Node)},
    RelistEntries l₁ l₂ → List.Forall₂ (EntryRel Relisting) l₁ l₂ := by
  intro l₁
  induction l₁ with
  | nil =>
    intro l₂ h
    cases h
    exact List.Forall₂.nil
  | cons p r₁ ih =>
    intro l₂ h
    cases h with
    | cons name c₁ c₂ r₁' r₂ hc htail =>
      exact List.Forall₂.cons ⟨rfl, hc⟩ (ih htail)

theorem forall₂_relistEntries {l₁ l₂ : List (String × Node)}
    (h : List.Forall₂ (EntryRel Relisting) l₁ l₂) : RelistEntries l₁ l₂ := by
  induction h with
  | nil => exact RelistEntries.nil
  | @cons a b r₁ r₂ hab htail ih =>
    obtain ⟨n₁, c₁⟩ := a
    obtain ⟨n₂, c₂⟩ := b
    obtain ⟨hn, hc⟩ := hab
    cases hn
    exact RelistEntries.cons n₁ c₁ c₂ r₁ r₂ hc ih

theorem relisting_isDirB {a b : Node} (h : Relisting a b) :
    a.isDirB = b.isDirB := by
  cases h <;> rfl

/-- Related entry lists produce identical loop output, provided the
related children walk identically. -/
theorem walkEntriesGo_forall₂ {es₁ es₂ : List (String × Node)}
    (hf : List.Forall₂ (EntryRel Relisting) es₁ es₂)
    (hrec : ∀ p, p ∈ es₁ → ∀ q : Node, Relisting p.2 q →
      ∀ b j, walkNode p.2 b j = walkNode q b j) :
    ∀ base i, walkEntriesGo (fun t b j => walkNode t b j) es₁ base i
      = walkEntriesGo (fun t b j => walkNode t b j) es₂ base i := by
  induction hf with
  | nil => intro base i; rfl
  | @cons a b r₁ r₂ hab htail ih =>
    intro base i
    obtain ⟨n₁, c₁⟩ := a
    obtain ⟨n₂, c₂⟩ := b
    obtain ⟨hn, hc⟩ := hab
    cases hn
    have hihtail := ih (fun p hp => hrec p (List.mem_cons_of_mem _ hp))
    have hchild : ∀ b' j', walkNode c₁ b' j' = walkNode c₂ b' j' :=
      fun b' j' => hrec (n₁, c₁) (List.mem_cons_self _ _) c₂ hc b' j'
    by_cases hig : should_ignore (base ++ [n₁]) = true
    · rw [walkEntriesGo_cons_ignored _ _ _ _ _ _ hig,
        walkEntriesGo_cons_ignored _ _ _ _ _ _ hig]
      exact hihtail base i
    · have hig' : should_ignore (base ++ [n₁]) = false := by simpa using hig
      cases hc with
      | file c =>
        rw [walkEntriesGo_cons_file _ _ _ _ _ _ hig',
          walkEntriesGo_cons_file _ _ _ _ _ _ hig', hihtail base i]
      | dirNone =>
        rw [walkEntriesGo_cons_dir _ _ _ _ _ _ hig',
          walkEntriesGo_cons_dir _ _ _ _ _ _ hig', hihtail base i]
      | dirSome l₁ mid l₂ hperm hre =>
        rw [walkEntriesGo_cons_dir _ _ _ _ _ _ hig',
          walkEntriesGo_cons_dir _ _ _ _ _ _ hig', hihtail base i,
          hchild (base ++ [n₁]) (i + 1)]

theorem nodupNames_dirSome {l : List (String × Node)}
    (h : NodupNames (.dir (some l))) :
    (l.map Prod.fst).Nodup ∧ ∀ p, p ∈ l → NodupNames p.2 := by
  cases h with
  | dirSome l hnd hch => exact ⟨hnd, hch⟩

theorem relisting_walk_aux : ∀ (n : Nat) (t₁ : Node), nodeSize t₁ ≤ n →
    ∀ t₂ : Node, Relisting t₁ t₂ → NodupNames t₁ →
    ∀ base i, walkNode t₁ base i = walkNode t₂ base i := by
  intro n
  induction n with
  | zero =>
    intro t h
    exact absurd h (by have := nodeSize_pos t; omega)
  | succ n ih =>
    intro t₁ ht t₂ hrel hnd base i
    cases hrel with
    | file c => rfl
    | dirNone => rfl
    | dirSome l₁ mid l₂ hperm hre =>
      obtain ⟨hnd₁, hch₁⟩ := nodupNames_dirSome hnd
      have hf : List.Forall₂ (EntryRel Relisting) mid l₂ :=
        relistEntries_forall₂ hre
      rw [walkNode_dirSome, walkNode_dirSome]
      have hsorteq : sortEntries l₁ = sortEntries mid :=
        sortEntries_eq_of_perm hperm hnd₁
      have hndmid : (mid.map Prod.fst).Nodup := hnd₁.perm (hperm.map _)
      have hfsorted : List.Forall₂ (EntryRel Relisting)
          (sortEntries mid) (sortEntries l₂) := sortEntries_forall₂ hndmid hf
      rw [hsorteq]
      apply walkEntriesGo_forall₂ hfsorted
      intro p hp q hq b j
      have hpmid : p ∈ mid := mem_sortEntries.mp hp
      have hpl₁ : p ∈ l₁ := hperm.mem_iff.mpr hpmid
      have hsz : nodeSize p.2 ≤ n := by
        have h1 := mem_entriesSize_lt hpl₁
        have h2 : nodeSize (Node.dir (some l₁)) = 1 + entriesSize l₁ := by
          simp [nodeSize]
        omega
      exact ih _ hsz _ hq (hch₁ p hpl₁) b j

/-! From walk equality to document equality: re-reading contents through
either listing of the unchanged tree gives the same strings. -/

theorem lookup_none_iff {β : Type} (a : String) (l : List (String × β)) :
    List.lookup a l = none ↔ a ∉ l.map Prod.fst := by
  induction l with
  | nil => simp
  | cons p rest ih =>
    obtain ⟨k, v⟩ := p
    by_cases hak : a = k
    · subst hak
      simp [List.lookup]
    · have hbeq : (a == k) = false := by simpa using hak
      simp only [List.lookup, hbeq, List.map_cons, List.mem_cons]
      simp [ih, hak]

theorem lookup_some_mem {β : Type} {a : String} {l : List (String × β)}
    {v : β} (h : List.lookup a l = some v) : (a, v) ∈ l := by
  induction l with
  | nil => simp [List.lookup] at h
  | cons p rest ih =>
    obtain ⟨k, w⟩ := p
    by_cases hak : a = k
    · subst hak
      simp [List.lookup] at h
      simp [h]
    · have hbeq : (a == k) = false := by simpa using hak
      simp only [List.lookup, hbeq] at h
      exact List.mem_cons_of_mem _ (ih h)

theorem mem_lookup_nodup {β : Type} {a : String} {l : List (String × β)}
    {v : β} (hnd : (l.map Prod.fst).Nodup) (h : (a, v) ∈ l) :
    List.lookup a l = some v := by
  induction l with
  | nil => cases h
  | cons p rest ih =>
    obtain ⟨k, w⟩ := p
    rw [List.map_cons, List.nodup_cons] at hnd
    rcases List.mem_cons.mp h with heq | hmem
    · cases heq
      simp [List.lookup]
    · by_cases hak : a = k
      · subst hak
        exfalso
        apply hnd.1
        have h5 := List.mem_map_of_mem Prod.fst hmem
        simpa using h5
      · have hbeq : (a == k) = false := by simpa using hak
        simp only [List.lookup, hbeq]
        exact ih hnd.2 hmem

theorem lookup_perm_nodup {β : Type} {l l' : List (String × β)}
    (hp : l.Perm l') (hnd : (l.map Prod.fst).Nodup) (a : String) :
    List.lookup a l = List.lookup a l' := by
  cases hl : List.lookup a l with
  | none =>
    rw [lookup_none_iff] at hl
    have : a ∉ l'.map Prod.fst := fun hmem => hl ((hp.map _).mem_iff.mpr hmem)
    exact ((lookup_none_iff a l').mpr this).symm
  | some v =>
    have hmem : (a, v) ∈ l' := hp.mem_iff.mp (lookup_some_mem hl)
    exact ((mem_lookup_nodup (hnd.perm (hp.map _)) hmem)).symm

theorem lookup_relist {l₁ l₂ : List (String × Node)}
    (h : List.Forall₂ (EntryRel Relisting) l₁ l₂) (a : String) :
    (List.lookup a l₁ = none ∧ List.lookup a l₂ = none) ∨
    (∃ c₁ c₂, List.lookup a l₁ = some c₁ ∧ List.lookup a l₂ = some c₂ ∧
      Relisting c₁ c₂ ∧ (a, c₁) ∈ l₁) := by
  induction h with
  | nil => exact Or.inl ⟨rfl, rfl⟩
  | @cons p q r₁ r₂ hpq htail ih =>
    obtain ⟨n₁, c₁⟩ := p
    obtain ⟨n₂, c₂⟩ := q
    obtain ⟨hn, hc⟩ := hpq
    cases hn
    by_cases hak : a = n₁
    · subst hak
      refine Or.inr ⟨c₁, c₂, ?_, ?_, hc, List.mem_cons_self _ _⟩ <;>
        simp [List.lookup]
    · have hbeq : (a == n₁) = false := by simpa using hak
      rcases ih with ⟨h1, h2⟩ | ⟨d₁, d₂, h1, h2, hrel, hmem⟩
      · refine Or.inl ⟨?_, ?_⟩ <;> simp [List.lookup, hbeq, h1, h2]
      · refine Or.inr ⟨d₁, d₂, ?_, ?_, hrel, List.mem_cons_of_mem _ hmem⟩ <;>
          simp [List.lookup, hbeq, h1, h2]

theorem relisting_readNodeContent {a b : Node} (h : Relisting a b) :
    readNodeContent a = readNodeContent b := by
  cases h <;> rfl

theorem readRel_nil (t : Node) : readRel t [] = readNodeContent t := by
  cases t with
  | file c => rfl
  | dir o => cases o <;> rfl

theorem readRel_cons_some {l : List (String × Node)} {s : String} {c : Node}
    (h : List.lookup s l = some c) (rest : List String) :
    readRel (.dir (some l)) (s :: rest) = readRel c rest := by
  simp [readRel, resolvePath, h]

theorem readRel_cons_none {l : List (String × Node)} {s : String}
    (h : List.lookup s l = none) (rest : List String) :
    readRel (.dir (some l)) (s :: rest)
      = "Error reading file: " ++ noSuchFileMsg := by
  simp [readRel, resolvePath, h]

theorem relisting_readRel : ∀ (rel : List String) (t₁ t₂ : Node),
    Relisting t₁ t₂ → NodupNames t₁ → readRel t₁ rel = readRel t₂ rel := by
  intro rel
  induction rel with
  | nil =>
    intro t₁ t₂ h hnd
    rw [readRel_nil, readRel_nil]
    exact relisting_readNodeContent h
  | cons s rest ih =>
    intro t₁ t₂ h hnd
    cases h with
    | file c => rfl
    | dirNone => rfl
    | dirSome l₁ mid l₂ hperm hre =>
      obtain ⟨hnd₁, hch₁⟩ := nodupNames_dirSome hnd
      have hlk : List.lookup s l₁ = List.lookup s mid :=
        lookup_perm_nodup hperm hnd₁ s
      rcases lookup_relist (relistEntries_forall₂ hre) s with
        ⟨h1, h2⟩ | ⟨c₁, c₂, h1, h2, hrel, hmem⟩
      · rw [readRel_cons_none (hlk.trans h1) rest,
          readRel_cons_none h2 rest]
      · rw [readRel_cons_some (hlk.trans h1) rest, readRel_cons_some h2 rest]
        have hmem₁ : (s, c₁) ∈ l₁ := hperm.mem_iff.mpr hmem
        exact ih c₁ c₂ hrel (hch₁ _ hmem₁)

theorem relisting_findEntry {t₁ t₂ : Node} (h : Relisting t₁ t₂)
    (hnd : NodupNames t₁) (name : String) :
    (findEntry t₁ name = none ∧ findEntry t₂ name = none) ∨
    (∃ n₁ n₂, findEntry t₁ name = some n₁ ∧ findEntry t₂ name = some n₂ ∧
      Relisting n₁ n₂) := by
  cases h with
  | file c => exact Or.inl ⟨rfl, rfl⟩
  | dirNone => exact Or.inl ⟨rfl, rfl⟩
  | dirSome l₁ mid l₂ hperm hre =>
    obtain ⟨hnd₁, -⟩ := nodupNames_dirSome hnd
    have hlk : List.lookup name l₁ = List.lookup name mid :=
      lookup_perm_nodup hperm hnd₁ name
    rcases lookup_relist (relistEntries_forall₂ hre) name with
      ⟨h1, h2⟩ | ⟨c₁, c₂, h1, h2, hrel, -⟩
    · exact Or.inl ⟨by simp [findEntry, hlk, h1], by simp [findEntry, h2]⟩
    · exact Or.inr ⟨c₁, c₂, by simp [findEntry, hlk, h1],
        by simp [findEntry, h2], hrel⟩

theorem relisting_readmeLookup {t₁ t₂ : Node} (h : Relisting t₁ t₂)
    (hnd : NodupNames t₁) : readmeLookup t₁ = readmeLookup t₂ := by
  rcases relisting_findEntry h hnd "README.md" with
    ⟨h1, h2⟩ | ⟨n₁, n₂, h1, h2, hrel⟩
  · rcases relisting_findEntry h hnd "README.MD" with
      ⟨g1, g2⟩ | ⟨m₁, m₂, g1, g2, grel⟩
    · simp [readmeLookup, h1, h2, g1, g2]
    · simp [readmeLookup, h1, h2, g1, g2,
        relisting_readNodeContent grel]
  · simp [readmeLookup, h1, h2, relisting_readNodeContent hrel]

theorem relisting_readmeBlock {t₁ t₂ : Node} (h : Relisting t₁ t₂)
    (hnd : NodupNames t₁) : readmeBlock t₁ = readmeBlock t₂ := by
  simp only [readmeBlock, relisting_readmeLookup h hnd]

theorem relisting_renderSnippet {t₁ t₂ : Node} (h : Relisting t₁ t₂)
    (hnd : NodupNames t₁) (base : List String) (r : FileRec) :
    renderSnippet t₁ base r = renderSnippet t₂ base r := by
  simp only [renderSnippet, relisting_readRel _ _ _ h hnd]

theorem relisting_retrieve {t₁ t₂ : Node} (h : Relisting t₁ t₂)
    (hnd : NodupNames t₁) (base : List String) :
    retrieve_local_repo_info t₁ base = retrieve_local_repo_info t₂ base := by
  have hwalk : build_directory_tree_local t₁ base
      = build_directory_tree_local t₂ base :=
    relisting_walk_aux (nodeSize t₁) t₁ (le_refl _) t₂ h hnd base 0
  have hsnip : renderSnippet t₁ base = renderSnippet t₂ base :=
    funext (fun r => relisting_renderSnippet h hnd base r)
  simp only [retrieve_local_repo_info, hwalk, buildSections_eq, hsnip,
    relisting_readmeBlock h hnd]

/-! Claim C8. -/

/-- C8: directory entries are processed in ascending (lexicographic)
Python string order at each level, so the walk and the assembly are
deterministic: two listings of the same unchanged tree — arbitrary
permutations at every level, with duplicate-free entry names as on a real
filesystem — produce byte-identical tree text, identical record lists and
a byte-identical document. -/
theorem C8_deterministic_output (t₁ t₂ : Node) (h : Relisting t₁ t₂)
    (hnd : NodupNames t₁) :
    (∀ l, List.Sorted entryLeP (sortEntries l)) ∧
    (∀ base, build_directory_tree_local t₁ base
      = build_directory_tree_local t₂ base) ∧
    (∀ base, retrieve_local_repo_info t₁ base
      = retrieve_local_repo_info t₂ base) := by
  refine ⟨sortEntries_sorted, ?_, ?_⟩
  · intro base
    exact relisting_walk_aux (nodeSize t₁) t₁ (le_refl _) t₂ h hnd base 0
  · intro base
    exact relisting_retrieve h hnd base

theorem relisting_fsC8 : Relisting fsC8a fsC8b := by
  refine Relisting.dirSome _
    [("a.java", .file (.text "a")), ("b.java", .file (.text "b"))] _
    ?_ ?_
  · exact List.Perm.swap _ _ _
  · exact RelistEntries.cons _ _ _ _ _ (Relisting.file _)
      (RelistEntries.cons _ _ _ _ _ (Relisting.file _) RelistEntries.nil)

theorem nodupNames_fsC8 : NodupNames fsC8a := by
  refine NodupNames.dirSome _ (by decide) ?_
  intro p hp
  rcases List.mem_cons.mp hp with rfl | hp2
  · exact NodupNames.file _
  · rcases List.mem_cons.mp hp2 with rfl | hp3
    · exact NodupNames.file _
    · cases hp3

theorem C8_deterministic_output_witness :
    retrieve_local_repo_info fsC8a ["r"] = retrieve_local_repo_info fsC8b ["r"] :=
  (C8_deterministic_output fsC8a fsC8b relisting_fsC8 nodupNames_fsC8).2.2 ["r"]

end GeneratePrompt
